import Mathlib

/-!
# Verification of the arbitrary-precision binary floating-point kernel `real.py`

A shallow embedding of the Python module `real.py` (class `Real` and its
arithmetic functions) together with theorems settling the specification
claims.  Python's unbounded integers are embedded as `Int`; Python's
arithmetic right shift `>>` on an integer is floor division by a power of
two; Python's `int.bit_length` is the binary length of the absolute value.
Fallible operations (those that raise in Python) return `Except Err` values.
-/

namespace real

/-- Python `int.bit_length`, on naturals, computed with an explicit fuel
counter (the fuel `n` itself always suffices since a number halves to zero
within `bit_length` steps, and `bit_length n ≤ n` for `n ≥ 1`). -/
def bitLenAux : Nat → Nat → Nat
  | 0, _ => 0
  | fuel + 1, m => if m = 0 then 0 else bitLenAux fuel (m / 2) + 1

/-- Python `int.bit_length`: the bit length of the absolute value. -/
def bit_length (x : Int) : Nat :=
  bitLenAux x.natAbs x.natAbs

/-- Python `x >> n` on a (possibly negative) int: arithmetic shift,
i.e. floor division by `2 ^ n`. -/
def shiftR (x : Int) (n : Nat) : Int :=
  Int.fdiv x (2 ^ n)

/-- Python `x << n`: multiplication by `2 ^ n`. -/
def shiftL (x : Int) (n : Nat) : Int :=
  x * 2 ^ n

/-- `bitmask(k)` from real.py: `(1 << k) - 1`. -/
def bitmask (k : Nat) : Int :=
  shiftL 1 k - 1

/-- The stored fields of a Python `Real` object: `coefficient * 2 ^ exponent`
with maximum coefficient bit width `precision`. -/
structure Real where
  coefficient : Int
  exponent : Int
  precision : Int
deriving DecidableEq

/-- `Real.default_precision` from real.py. -/
def Real.default_precision : Int := 256

/-- The errors the module raises: `InvalidOperationError`, the constructor's
`ValueError`, and Python's runtime `AttributeError` (raised when an
undefined attribute such as `isint` is looked up). -/
inductive Err where
  | invalidOperation : String → Err
  | valueError : String → Err
  | attributeError : String → Err
deriving DecidableEq

/-- `Real.normalize` from real.py, as a pure function on the
`(coefficient, exponent)` pair: if the coefficient has more bits than
`precision`, arithmetically right-shift it by the excess and add the shift
amount to the exponent; otherwise leave both unchanged. -/
def normalize (c e p : Int) : Int × Int :=
  let bit_diff : Int := (bit_length c : Int) - p
  if 0 < bit_diff then (shiftR c bit_diff.toNat, e + bit_diff) else (c, e)

/-- The body of `Real.__init__` after its precision check: store the fields
and normalize. -/
def mk' (c e p : Int) : Real :=
  let n := normalize c e p
  ⟨n.1, n.2, p⟩

/-- `Real.__init__` from a raw `(coefficient, exponent)` pair: raises
`ValueError` unless the precision is a positive integer, then normalizes. -/
def mkChecked (c e p : Int) : Except Err Real :=
  if p ≤ 0 then .error (Err.valueError ("Real precision must be a positive integer"))
  else .ok (mk' c e p)

/-- `real_from_int` from real.py. -/
def real_from_int (i : Int) : Int × Int :=
  (i, 0)

/-- The coefficient computed after exponent alignment, shared by `compare`
and `add` in real.py: `a.coefficient + (b.coefficient << (b.exponent -
a.exponent))`, meaningful when `a.exponent <= b.exponent`. -/
def alignedSum (a b : Real) : Int :=
  a.coefficient + shiftL b.coefficient (b.exponent - a.exponent).toNat

/-- The three-way result `compare` returns: the sign of the summed
coefficient. -/
def sgn1 (c : Int) : Int :=
  if 0 < c then 1 else if c < 0 then -1 else 0

/-- `compare(x, y)` from real.py.  The Python function executes
`y.coefficient = -y.coefficient` on the caller's object `y` and never
restores it, so the embedding returns, besides the comparison result,
the final states of the caller's two operands `x` and `y`. -/
def compare (x y : Real) : Int × Real × Real :=
  let y' : Real := ⟨-y.coefficient, y.exponent, y.precision⟩
  let p := if y'.exponent < x.exponent then (y', x) else (x, y')
  (sgn1 (alignedSum p.1 p.2), x, y')

/-- `neg` from real.py. -/
def neg (x : Real) : Real :=
  mk' (-x.coefficient) x.exponent x.precision

/-- `_abs` from real.py. -/
def _abs (x : Real) : Real :=
  mk' |x.coefficient| x.exponent x.precision

/-- `_round` from real.py.  `Real(i)` with a single int argument uses
`real_from_int` and the default precision. -/
def _round (x : Real) : Real :=
  if 0 ≤ x.exponent then
    mk' (shiftL x.coefficient x.exponent.toNat) 0 Real.default_precision
  else
    let exp := (-x.exponent).toNat
    let x1 := shiftR x.coefficient (exp - 1)
    let x2 := if x1 % 2 = 1 then x1 + 1 else x1
    mk' (shiftR x2 1) 0 Real.default_precision

/-- The body of `floor` for the cases that do not recurse (used for the
single recursive call `ceil` makes on `-x`, whose coefficient is
nonnegative, so the mutual recursion of the source bottoms out after one
step). -/
def floorAux (x : Real) : Real :=
  if 0 ≤ x.exponent then
    mk' (shiftL x.coefficient x.exponent.toNat) 0 Real.default_precision
  else
    mk' (shiftR x.coefficient (-x.exponent).toNat) 0 Real.default_precision

/-- The body of `ceil` for the cases that do not recurse (see `floorAux`). -/
def ceilAux (x : Real) : Real :=
  if 0 ≤ x.exponent then
    mk' (shiftL x.coefficient x.exponent.toNat) 0 Real.default_precision
  else
    let exp := (-x.exponent).toNat
    if Int.land x.coefficient (bitmask exp) ≠ 0 then
      mk' (shiftR x.coefficient exp + 1) 0 Real.default_precision
    else
      mk' (shiftR x.coefficient exp) 0 Real.default_precision

/-- `floor` from real.py.  For a negative coefficient the source delegates
to `-ceil(-x)`; since `-x` then has a nonnegative coefficient, that call is
`ceilAux`. -/
def floor (x : Real) : Real :=
  if 0 ≤ x.exponent then
    mk' (shiftL x.coefficient x.exponent.toNat) 0 Real.default_precision
  else if x.coefficient < 0 then
    neg (ceilAux (neg x))
  else
    mk' (shiftR x.coefficient (-x.exponent).toNat) 0 Real.default_precision

/-- `ceil` from real.py (see `floor` for the treatment of the recursion). -/
def ceil (x : Real) : Real :=
  if 0 ≤ x.exponent then
    mk' (shiftL x.coefficient x.exponent.toNat) 0 Real.default_precision
  else if x.coefficient < 0 then
    neg (floorAux (neg x))
  else
    let exp := (-x.exponent).toNat
    if Int.land x.coefficient (bitmask exp) ≠ 0 then
      mk' (shiftR x.coefficient exp + 1) 0 Real.default_precision
    else
      mk' (shiftR x.coefficient exp) 0 Real.default_precision

/-- `add(x, y)` from real.py: align to the smaller exponent, add the
coefficients, take the minimum precision, and construct (which
normalizes). -/
def add (x y : Real) : Real :=
  let p := if y.exponent < x.exponent then (y, x) else (x, y)
  mk' (alignedSum p.1 p.2) p.1.exponent (min p.1.precision p.2.precision)

/-- `sub(x, y)` from real.py.  The source temporarily negates the caller's
`y`, calls `add`, and then restores `y`'s sign; the embedding returns the
result together with the final states of the caller's operands. -/
def sub (x y : Real) : Real × Real × Real :=
  let y1 : Real := ⟨-y.coefficient, y.exponent, y.precision⟩
  let res := add x y1
  let y2 : Real := ⟨-y1.coefficient, y1.exponent, y1.precision⟩
  (res, x, y2)

/-- `mul(x, y)` from real.py. -/
def mul (x y : Real) : Real :=
  mk' (x.coefficient * y.coefficient) (x.exponent + y.exponent)
    (min x.precision y.precision)

/-- `div(x, y)` from real.py: raises `InvalidOperationError` when `y`'s
coefficient is zero, otherwise divides with `2 * max(px, py) + 1` guard
bits and constructs the result through the (checking, normalizing)
constructor. -/
def div (x y : Real) : Except Err Real :=
  if y.coefficient = 0 then
    .error (Err.invalidOperation ("Cannot divide a Real by 0"))
  else
    let k : Int := 2 * max x.precision y.precision + 1
    mkChecked (Int.fdiv (shiftL x.coefficient k.toNat) y.coefficient)
      (x.exponent - y.exponent - k) (min x.precision y.precision)

/-- `_pow(x, y)` from real.py.  After the two zero-coefficient tests the
source evaluates `y.isint()`, but the class defines no attribute `isint`
(the predicate is named `is_int`), so that lookup raises `AttributeError`
before any further branch can run. -/
def _pow (x y : Real) : Except Err Real :=
  if y.coefficient = 0 then
    .ok (mk' 1 0 Real.default_precision)
  else if x.coefficient = 0 then
    .ok x
  else
    .error (Err.attributeError ("Real object has no attribute isint"))

/-- The numeric value of a decimal digit character. -/
def digitVal (ch : Char) : Nat :=
  ch.toNat - Char.toNat '0'

/-- Consume a leading run of decimal digits, returning the accumulated
value, the number of digits consumed, and the remaining characters. -/
def parseDigits : List Char → Nat → Nat → Nat × Nat × List Char
  | [], acc, n => (acc, n, [])
  | ch :: rest, acc, n =>
    if ch.isDigit then parseDigits rest (10 * acc + digitVal ch) (n + 1)
    else (acc, n, ch :: rest)

/-- Consume an optional leading sign, returning whether it was a minus
sign and the remaining characters. -/
def parseSign : List Char → Bool × List Char
  | '-' :: rest => (true, rest)
  | '+' :: rest => (false, rest)
  | l => (false, l)

/-- Modelled from the spec: the binary-scaling step of the decimal-string
conversion, which is missing from src/real.py (`real_from_str` is an
unimplemented TODO stub).  Per the spec, the exact decimal value
`d * 10 ^ e` is converted to binary at `precision + guard` bits (guard
taken as 16, inside the spec's suggested 8-16 range) by multiplication and
division by powers of two and five (here combined as division by the power
of ten), truncating; a nonnegative decimal exponent needs no guard bits
since the value is an exact integer. -/
def decimal_to_binary (d e precision : Int) : Int × Int :=
  if 0 ≤ e then (d * 10 ^ e.toNat, 0)
  else
    let G := (precision + 16).toNat
    (Int.fdiv (d * 2 ^ G) (10 ^ (-e).toNat), -(G : Int))

/-- The optional fractional part: after the integer digits, a leading dot
starts a run of fractional digits; anything else leaves zero fractional
digits. -/
def fracSplit : List Char → Nat × Nat × List Char
  | '.' :: rest => parseDigits rest 0 0
  | l => (0, 0, l)

/-- The optional decimal exponent suffix, given the signed digits value
`d`, the fractional digit count `nf`, and the requested precision: end of
input yields `d * 10^(-nf)`; a suffix `e`, optional sign, and at least one
digit (consuming the whole remainder) adjusts the decimal exponent;
anything else is a parse error. -/
def expSplit (d : Int) (nf : Nat) (precision : Int) : List Char → Option (Int × Int)
  | [] => some (decimal_to_binary d (-(nf : Int)) precision)
  | 'e' :: r4 =>
    let sE := parseSign r4
    let pExp := parseDigits sE.2 0 0
    if pExp.2.1 = 0 ∨ pExp.2.2 ≠ [] then none
    else
      let e : Int := (if sE.1 then -(pExp.1 : Int) else (pExp.1 : Int)) - (nf : Int)
      some (decimal_to_binary d e precision)
  | _ => none

/-- Modelled from the spec: `real_from_str` is declared in src/real.py but
its body is an unimplemented TODO stub.  Per the spec it parses an optional
sign, integer digits, optional fractional digits, and an optional decimal
exponent suffix into an exact decimal value `d * 10 ^ e`, then converts to
binary (`decimal_to_binary`); malformed input is a parse error (`none`).
The spec performs the conversion at `precision + guard` bits, so the
requested precision is threaded through as an extra argument. -/
def real_from_str (s : String) (precision : Int) : Option (Int × Int) :=
  let s1 := parseSign s.data
  let pInt := parseDigits s1.2 0 0
  if pInt.2.1 = 0 then none
  else
    let pFrac := fracSplit pInt.2.2
    let d0 : Nat := pInt.1 * 10 ^ pFrac.2.1 + pFrac.1
    let d : Int := if s1.1 then -(d0 : Int) else (d0 : Int)
    expSplit d pFrac.2.1 precision pFrac.2.2

/-- `Real.__init__` from a string argument: convert via `real_from_str`
(spec-modelled, see there) and construct at the given precision. -/
def real_of_str (s : String) (precision : Int) : Option Real :=
  (real_from_str s precision).map fun ce => mk' ce.1 ce.2 precision

/-- The mathematical value `coefficient * 2 ^ exponent` of a stored `Real`,
as a rational number. -/
def val (x : Real) : ℚ :=
  (x.coefficient : ℚ) * 2 ^ x.exponent

/-! ## The grammar of well-formed decimal strings

To state that every well-formed decimal string parses, the spec's grammar
(optional sign, integer digits, optional fractional digits, optional
decimal exponent suffix) is formalized as an abstract shape together with
its rendering to a concrete string. -/

/-- The character of a decimal digit value. -/
def digitChar (n : Nat) : Char :=
  Char.ofNat (Char.toNat '0' + n)

/-- The numeric value of a list of decimal digits, most significant
first. -/
def digitsVal (ds : List Nat) : Nat :=
  ds.foldl (fun a d => 10 * a + d) 0

/-- An abstract well-formed decimal string: an optional sign (`some true`
renders as a minus sign, `some false` as a plus sign), integer digits,
optional fractional digits, and an optional exponent suffix carrying its
own optional sign. -/
structure DecShape where
  sign : Option Bool
  intDigits : List Nat
  fracDigits : List Nat
  expPart : Option (Option Bool × List Nat)

/-- Rendering of an optional sign. -/
def signChars : Option Bool → List Char
  | none => []
  | some true => ['-']
  | some false => ['+']

/-- Rendering of a shape as a concrete decimal string. -/
def renderDec (sh : DecShape) : String :=
  ⟨signChars sh.sign ++ sh.intDigits.map digitChar ++
    (match sh.fracDigits with
     | [] => []
     | fs => '.' :: fs.map digitChar) ++
    (match sh.expPart with
     | none => []
     | some (sE, ds) => 'e' :: (signChars sE ++ ds.map digitChar))⟩

/-- Well-formedness of a shape: at least one integer digit, every digit
below ten, and a nonempty digit list in the exponent suffix when one is
present. -/
def validShape (sh : DecShape) : Bool :=
  (!sh.intDigits.isEmpty) && sh.intDigits.all (fun d => d < 10)
    && sh.fracDigits.all (fun d => d < 10)
    && (match sh.expPart with
        | none => true
        | some (_, ds) => (!ds.isEmpty) && ds.all (fun d => d < 10))

/-- The exact signed decimal digits value `d` a shape denotes (integer and
fractional digits concatenated). -/
def shapeCoefficient (sh : DecShape) : Int :=
  if sh.sign = some true then -(digitsVal (sh.intDigits ++ sh.fracDigits) : Int)
  else (digitsVal (sh.intDigits ++ sh.fracDigits) : Int)

/-- The exact decimal exponent `e` a shape denotes: the signed exponent
suffix value minus the number of fractional digits. -/
def shapeExponent (sh : DecShape) : Int :=
  (match sh.expPart with
   | none => 0
   | some (sE, ds) =>
     if sE = some true then -(digitsVal ds : Int) else (digitsVal ds : Int))
  - (sh.fracDigits.length : Int)

end real

deriving instance DecidableEq for Except

namespace real

/-! ## Bit-length facts -/

theorem bitLenAux_le_iff :
    ∀ (fuel m k : Nat), m ≤ fuel → (bitLenAux fuel m ≤ k ↔ m < 2 ^ k) := by
  intro fuel
  induction fuel with
  | zero =>
    intro m k hm
    have hm0 : m = 0 := Nat.le_zero.mp hm
    subst hm0
    simp [bitLenAux, Nat.pos_pow_of_pos, Nat.pos_of_ne_zero]
  | succ fuel ih =>
    intro m k hm
    by_cases h0 : m = 0
    · subst h0
      simp [bitLenAux, Nat.pos_of_ne_zero]
    · rw [show bitLenAux (fuel + 1) m = bitLenAux fuel (m / 2) + 1 by
        simp [bitLenAux, h0]]
      cases k with
      | zero =>
        constructor
        · omega
        · intro h; omega
      | succ k =>
        have hdiv : m / 2 ≤ fuel := by omega
        rw [Nat.succ_le_succ_iff, ih (m / 2) k hdiv, pow_succ]
        rw [Nat.div_lt_iff_lt_mul (by norm_num : 0 < 2)]

theorem bit_length_le_iff {x : Int} {k : Nat} :
    bit_length x ≤ k ↔ x.natAbs < 2 ^ k :=
  bitLenAux_le_iff _ _ _ le_rfl

theorem natAbs_lt_two_pow_bit_length (x : Int) : x.natAbs < 2 ^ bit_length x :=
  bit_length_le_iff.mp le_rfl

theorem two_pow_le_natAbs_of_lt_bit_length {x : Int} {k : Nat}
    (h : k < bit_length x) : 2 ^ k ≤ x.natAbs := by
  by_contra hlt
  push_neg at hlt
  have := bit_length_le_iff.mpr hlt
  omega

theorem bit_length_mono {x y : Int} (h : x.natAbs ≤ y.natAbs) :
    bit_length x ≤ bit_length y :=
  bit_length_le_iff.mpr (lt_of_le_of_lt h (natAbs_lt_two_pow_bit_length y))

theorem bit_length_neg (x : Int) : bit_length (-x) = bit_length x := by
  unfold bit_length
  rw [Int.natAbs_neg]

theorem bit_length_zero : bit_length 0 = 0 := rfl

theorem bit_length_shiftL_le (c : Int) (n : Nat) :
    bit_length (shiftL c n) ≤ bit_length c + n := by
  apply bit_length_le_iff.mpr
  rw [shiftL, pow_add]
  calc (c * 2 ^ n).natAbs = c.natAbs * 2 ^ n := by
        rw [Int.natAbs_mul]
        norm_num [Int.natAbs_pow]
    _ < 2 ^ bit_length c * 2 ^ n :=
        (Nat.mul_lt_mul_right (Nat.pos_pow_of_pos n (by norm_num))).mpr
          (natAbs_lt_two_pow_bit_length c)

/-! ## Floor-division (arithmetic shift) facts -/

theorem fdiv_mul_le (a : Int) {b : Int} (hb : 0 < b) : a.fdiv b * b ≤ a := by
  have h := Int.fmod_add_fdiv a b
  have hm := Int.fmod_nonneg' a hb
  nlinarith [h, hm]

theorem shiftR_mul_le (c : Int) (n : Nat) : shiftR c n * 2 ^ n ≤ c :=
  fdiv_mul_le c (by positivity)

theorem lt_shiftR_add_one_mul (c : Int) (n : Nat) :
    c < (shiftR c n + 1) * 2 ^ n :=
  Int.lt_fdiv_add_one_mul_self c (by positivity)

theorem shiftR_nonneg {c : Int} (hc : 0 ≤ c) (n : Nat) : 0 ≤ shiftR c n :=
  Int.fdiv_nonneg hc (by positivity)

theorem shiftR_le_self {c : Int} (hc : 0 ≤ c) (n : Nat) : shiftR c n ≤ c := by
  have h1 := shiftR_mul_le c n
  have hp : (0 : Int) < 2 ^ n := by positivity
  have h2 : (1 : Int) ≤ 2 ^ n := by omega
  have h3 := shiftR_nonneg hc n
  nlinarith

theorem shiftR_pos_iff {c : Int} (n : Nat) : 0 < shiftR c n ↔ 2 ^ n ≤ c := by
  have hp : (0 : Int) < 2 ^ n := by positivity
  constructor
  · intro h
    have h1 : (1 : Int) ≤ shiftR c n := by omega
    calc (2 : Int) ^ n = 1 * 2 ^ n := by ring
      _ ≤ shiftR c n * 2 ^ n := mul_le_mul_of_nonneg_right h1 (le_of_lt hp)
      _ ≤ c := shiftR_mul_le c n
  · intro h
    by_contra hq
    push_neg at hq
    have h2 : (shiftR c n + 1) * 2 ^ n ≤ 1 * 2 ^ n :=
      mul_le_mul_of_nonneg_right (by omega) (le_of_lt hp)
    have h3 := lt_shiftR_add_one_mul c n
    linarith

theorem shiftR_neg_iff {c : Int} (n : Nat) : shiftR c n < 0 ↔ c < 0 := by
  have hp : (0 : Int) < 2 ^ n := by positivity
  constructor
  · intro h
    by_contra hc
    push_neg at hc
    exact absurd (shiftR_nonneg hc n) (by omega)
  · intro h
    by_contra hq
    push_neg at hq
    have h1 := shiftR_mul_le c n
    nlinarith

theorem shiftR_eq_of_dvd {c : Int} {n : Nat} (h : (2 : Int) ^ n ∣ c) :
    shiftR c n * 2 ^ n = c := by
  obtain ⟨q, hq⟩ := h
  subst hq
  rw [shiftR, mul_comm ((2:Int)^n) q, Int.mul_fdiv_cancel q (by positivity)]

/-! ## Construction and normalization facts -/

theorem mk'_of_bit_length_le {c e p : Int} (h : (bit_length c : Int) ≤ p) :
    mk' c e p = ⟨c, e, p⟩ := by
  simp only [mk', normalize]
  rw [if_neg (by omega)]

theorem mk'_of_lt_bit_length {c e p : Int} (h : p < (bit_length c : Int)) :
    mk' c e p = ⟨shiftR c ((bit_length c : Int) - p).toNat,
      e + ((bit_length c : Int) - p), p⟩ := by
  simp only [mk', normalize]
  rw [if_pos (by omega)]

theorem mk'_precision (c e p : Int) : (mk' c e p).precision = p := rfl

theorem mk'_coeff_pos_iff {c e p : Int} (hp : 0 < p) :
    0 < (mk' c e p).coefficient ↔ 0 < c := by
  by_cases hb : (bit_length c : Int) ≤ p
  · rw [mk'_of_bit_length_le hb]
  · push_neg at hb
    rw [mk'_of_lt_bit_length hb]
    show 0 < shiftR c _ ↔ 0 < c
    rw [shiftR_pos_iff]
    set d := ((bit_length c : Int) - p).toNat with hdd
    constructor
    · intro h2
      have hp2 : (0 : Int) < 2 ^ d := by positivity
      omega
    · intro hc
      have hd : d < bit_length c := by omega
      have h2 := two_pow_le_natAbs_of_lt_bit_length hd
      have h3 : (c.natAbs : Int) = c := Int.natAbs_of_nonneg (le_of_lt hc)
      calc (2 : Int) ^ d = ((2 ^ d : Nat) : Int) := by push_cast; ring
        _ ≤ (c.natAbs : Int) := by exact_mod_cast h2
        _ = c := h3

theorem mk'_coeff_neg_iff {c e p : Int} :
    (mk' c e p).coefficient < 0 ↔ c < 0 := by
  by_cases hb : (bit_length c : Int) ≤ p
  · rw [mk'_of_bit_length_le hb]
  · push_neg at hb
    rw [mk'_of_lt_bit_length hb]
    exact shiftR_neg_iff _

theorem mk'_coeff_eq_zero_iff {c e p : Int} (hp : 0 < p) :
    (mk' c e p).coefficient = 0 ↔ c = 0 := by
  have h1 := mk'_coeff_pos_iff (c := c) (e := e) hp
  have h2 := mk'_coeff_neg_iff (c := c) (e := e) (p := p)
  omega

/-! ## Value semantics -/

theorem val_mk (c e p : Int) : val (⟨c, e, p⟩ : Real) = (c : ℚ) * 2 ^ e := rfl

theorem val_mk'_of_dvd {c e p : Int}
    (h : (2 : Int) ^ (((bit_length c : Int) - p).toNat) ∣ c) :
    val (mk' c e p) = (c : ℚ) * 2 ^ e := by
  by_cases hb : (bit_length c : Int) ≤ p
  · rw [mk'_of_bit_length_le hb, val_mk]
  · push_neg at hb
    rw [mk'_of_lt_bit_length hb, val_mk]
    set d := ((bit_length c : Int) - p).toNat with hdd
    have hx := shiftR_eq_of_dvd h
    have hde : (bit_length c : Int) - p = (d : Int) := by omega
    rw [hde, zpow_add₀ (two_ne_zero : (2:ℚ) ≠ 0), zpow_natCast]
    have hc : (c : ℚ) = ((shiftR c d : Int) : ℚ) * (2 : ℚ) ^ (d : ℕ) := by
      exact_mod_cast (congrArg (fun z : Int => (z : ℚ)) hx).symm
    rw [hc]
    ring

theorem val_mk'_le (c e p : Int) :
    val (mk' c e p) ≤ (c : ℚ) * 2 ^ e := by
  by_cases hb : (bit_length c : Int) ≤ p
  · rw [mk'_of_bit_length_le hb, val_mk]
  · push_neg at hb
    rw [mk'_of_lt_bit_length hb, val_mk]
    set d := ((bit_length c : Int) - p).toNat with hdd
    have hde : (bit_length c : Int) - p = (d : Int) := by omega
    have h1 : ((shiftR c d * 2 ^ d : Int) : ℚ) ≤ (c : ℚ) := by
      exact_mod_cast shiftR_mul_le c d
    have h2 : (0 : ℚ) < 2 ^ e := by positivity
    calc ((shiftR c d : Int) : ℚ) * 2 ^ (e + ((bit_length c : Int) - p))
        = ((shiftR c d * 2 ^ d : Int) : ℚ) * 2 ^ e := by
          rw [hde, zpow_add₀ (two_ne_zero : (2:ℚ) ≠ 0), zpow_natCast]
          push_cast
          ring
      _ ≤ (c : ℚ) * 2 ^ e := mul_le_mul_of_nonneg_right h1 (le_of_lt h2)

theorem val_mk'_of_natAbs_le {m : Int} (h : m.natAbs ≤ 2 ^ 256) (e : Int) :
    val (mk' m e 256) = (m : ℚ) * 2 ^ e := by
  apply val_mk'_of_dvd
  by_cases h1 : m.natAbs < 2 ^ 256
  · have hb : bit_length m ≤ 256 := bit_length_le_iff.mpr h1
    have ht : ((bit_length m : Int) - 256).toNat = 0 := by omega
    rw [ht]
    simp
  · have h2 : m.natAbs = 2 ^ 256 := by omega
    have hle : bit_length m ≤ 257 := bit_length_le_iff.mpr (by rw [h2]; norm_num)
    have hgt : 256 < bit_length m := by
      by_contra hc
      push_neg at hc
      have := bit_length_le_iff.mp hc
      omega
    have hbl : bit_length m = 257 := by omega
    rw [hbl]
    have ht : (((257 : Nat) : Int) - 256).toNat = 1 := by norm_num
    rw [ht]
    have : (2 : Nat) ∣ m.natAbs := by
      rw [h2]
      exact dvd_pow_self 2 (by norm_num)
    have h3 : (2 : Int) ∣ m := by
      rw [← Int.natAbs_dvd_natAbs]
      simpa using this
    simpa using h3

/-! ## The comparator computes the sign of the exact difference -/

theorem sgn1_spec {S : Int} {M D : ℚ} (hM : 0 < M) (hkey : (S : ℚ) * M = D) :
    (sgn1 S = 1 ↔ 0 < D) ∧ (sgn1 S = 0 ↔ D = 0) ∧ (sgn1 S = -1 ↔ D < 0) := by
  rcases lt_trichotomy S 0 with h | h | h
  · have hD : D < 0 := by
      rw [← hkey]
      exact mul_neg_of_neg_of_pos (by exact_mod_cast h) hM
    have hs : sgn1 S = -1 := by
      unfold sgn1
      rw [if_neg (by omega), if_pos h]
    rw [hs]
    refine ⟨⟨fun h1 => absurd h1 (by norm_num), fun h1 => absurd h1 (by linarith)⟩,
      ⟨fun h1 => absurd h1 (by norm_num), fun h1 => absurd h1 (by linarith)⟩,
      ⟨fun _ => hD, fun _ => rfl⟩⟩
  · have hD : D = 0 := by
      rw [← hkey, h]
      push_cast
      ring
    have hs : sgn1 S = 0 := by
      unfold sgn1
      rw [if_neg (by omega), if_neg (by omega)]
    rw [hs]
    refine ⟨⟨fun h1 => absurd h1 (by norm_num), fun h1 => absurd h1 (by linarith)⟩,
      ⟨fun _ => hD, fun _ => rfl⟩,
      ⟨fun h1 => absurd h1 (by norm_num), fun h1 => absurd h1 (by linarith)⟩⟩
  · have hD : 0 < D := by
      rw [← hkey]
      exact mul_pos (by exact_mod_cast h) hM
    have hs : sgn1 S = 1 := by
      unfold sgn1
      rw [if_pos h]
    rw [hs]
    refine ⟨⟨fun _ => hD, fun _ => rfl⟩,
      ⟨fun h1 => absurd h1 (by norm_num), fun h1 => absurd h1 (by linarith)⟩,
      ⟨fun h1 => absurd h1 (by norm_num), fun h1 => absurd h1 (by linarith)⟩⟩

theorem alignedSum_val {a b : Real} (h : a.exponent ≤ b.exponent) :
    ((alignedSum a b : Int) : ℚ) * 2 ^ a.exponent = val a + val b := by
  unfold alignedSum shiftL val
  have he : ((b.exponent - a.exponent).toNat : Int) = b.exponent - a.exponent :=
    Int.toNat_of_nonneg (by omega)
  have h2 : (2 : ℚ) ^ ((b.exponent - a.exponent).toNat : ℕ)
      = (2 : ℚ) ^ (b.exponent - a.exponent) := by
    rw [← zpow_natCast, he]
  push_cast
  rw [h2, add_mul, mul_assoc, ← zpow_add₀ (two_ne_zero : (2:ℚ) ≠ 0),
    sub_add_cancel]

theorem compare_spec (x y : Real) :
    ((compare x y).1 = 1 ↔ val y < val x) ∧
    ((compare x y).1 = 0 ↔ val x = val y) ∧
    ((compare x y).1 = -1 ↔ val x < val y) := by
  have hy' : val ⟨-y.coefficient, y.exponent, y.precision⟩ = -(val y) := by
    rw [val_mk, val]
    push_cast
    ring
  by_cases hsw : y.exponent < x.exponent
  · have hfst : (compare x y).1
        = sgn1 (alignedSum ⟨-y.coefficient, y.exponent, y.precision⟩ x) := by
      simp only [compare]
      rw [if_pos (show (⟨-y.coefficient, y.exponent, y.precision⟩ : Real).exponent
        < x.exponent from hsw)]
    have hkey := alignedSum_val
      (a := ⟨-y.coefficient, y.exponent, y.precision⟩) (b := x)
      (show (⟨-y.coefficient, y.exponent, y.precision⟩ : Real).exponent
        ≤ x.exponent from le_of_lt hsw)
    rw [hy'] at hkey
    have hkey2 : ((alignedSum ⟨-y.coefficient, y.exponent, y.precision⟩ x : Int) : ℚ)
        * 2 ^ y.exponent = val x - val y := by
      rw [show (2:ℚ) ^ y.exponent = (2:ℚ)
        ^ (⟨-y.coefficient, y.exponent, y.precision⟩ : Real).exponent from rfl, hkey]
      ring
    obtain ⟨h1, h2, h3⟩ := sgn1_spec (show (0:ℚ) < 2 ^ y.exponent by positivity) hkey2
    rw [hfst]
    refine ⟨?_, ?_, ?_⟩
    · rw [h1, sub_pos]
    · rw [h2, sub_eq_zero]
    · rw [h3, sub_neg]
  · have hfst : (compare x y).1
        = sgn1 (alignedSum x ⟨-y.coefficient, y.exponent, y.precision⟩) := by
      simp only [compare]
      rw [if_neg (show ¬((⟨-y.coefficient, y.exponent, y.precision⟩ : Real).exponent
        < x.exponent) from hsw)]
    have hkey := alignedSum_val
      (a := x) (b := ⟨-y.coefficient, y.exponent, y.precision⟩)
      (show x.exponent ≤ (⟨-y.coefficient, y.exponent, y.precision⟩ : Real).exponent
        from le_of_not_lt hsw)
    rw [hy'] at hkey
    have hkey2 : ((alignedSum x ⟨-y.coefficient, y.exponent, y.precision⟩ : Int) : ℚ)
        * 2 ^ x.exponent = val x - val y := by
      rw [hkey]
      ring
    obtain ⟨h1, h2, h3⟩ := sgn1_spec (show (0:ℚ) < 2 ^ x.exponent by positivity) hkey2
    rw [hfst]
    refine ⟨?_, ?_, ?_⟩
    · rw [h1, sub_pos]
    · rw [h2, sub_eq_zero]
    · rw [h3, sub_neg]

/-! ## Magnitude bounds under truncation -/

theorem natAbs_shiftR_le (c : Int) (n : Nat) :
    (shiftR c n).natAbs ≤ c.natAbs := by
  rcases le_or_lt 0 c with hc | hc
  · have h1 := shiftR_le_self hc n
    have h2 := shiftR_nonneg hc n
    omega
  · have hq : shiftR c n < 0 := (shiftR_neg_iff n).mpr hc
    have hp : (0 : Int) < 2 ^ n := by positivity
    have h1 := lt_shiftR_add_one_mul c n
    have h2 : (shiftR c n + 1) * 2 ^ n ≤ (shiftR c n + 1) * 1 :=
      mul_le_mul_of_nonpos_left (by omega) (by omega)
    have h3 : c ≤ shiftR c n := by omega
    omega

theorem mk'_natAbs_le (c e p : Int) :
    (mk' c e p).coefficient.natAbs ≤ c.natAbs := by
  by_cases hb : (bit_length c : Int) ≤ p
  · rw [mk'_of_bit_length_le hb]
  · push_neg at hb
    rw [mk'_of_lt_bit_length hb]
    exact natAbs_shiftR_le c _

/-- The bit test `x.coefficient & bitmask(exp)` of real.py equals a
remainder for a nonnegative coefficient. -/
theorem land_bitmask {c : Int} (hc : 0 ≤ c) (k : Nat) :
    Int.land c (bitmask k) = c % 2 ^ k := by
  obtain ⟨m, rfl⟩ := Int.eq_ofNat_of_zero_le hc
  have hb : bitmask k = ((2 ^ k - 1 : Nat) : Int) := by
    unfold bitmask shiftL
    have h1 : (1 : Nat) ≤ 2 ^ k := Nat.one_le_two_pow
    push_cast [h1]
    ring
  rw [hb]
  have h2 : Int.land (m : Int) ((2 ^ k - 1 : Nat) : Int)
      = ((Nat.land m (2 ^ k - 1) : Nat) : Int) := rfl
  rw [h2]
  have h3 : Nat.land m (2 ^ k - 1) = m % 2 ^ k :=
    Nat.and_pow_two_sub_one_eq_mod m k
  rw [h3]
  push_cast
  ring

/-! ## Branch equations for floor and ceil -/

theorem floor_of_exp_nonneg {x : Real} (he : 0 ≤ x.exponent) :
    floor x = mk' (shiftL x.coefficient x.exponent.toNat) 0 Real.default_precision := by
  unfold floor
  rw [if_pos he]

theorem ceil_of_exp_nonneg {x : Real} (he : 0 ≤ x.exponent) :
    ceil x = mk' (shiftL x.coefficient x.exponent.toNat) 0 Real.default_precision := by
  unfold ceil
  rw [if_pos he]

theorem floor_of_neg_coeff {x : Real} (he : ¬ 0 ≤ x.exponent)
    (hc : x.coefficient < 0) : floor x = neg (ceilAux (neg x)) := by
  unfold floor
  rw [if_neg he, if_pos hc]

theorem ceil_of_neg_coeff {x : Real} (he : ¬ 0 ≤ x.exponent)
    (hc : x.coefficient < 0) : ceil x = neg (floorAux (neg x)) := by
  unfold ceil
  rw [if_neg he, if_pos hc]

theorem floor_of_nonneg_coeff {x : Real} (he : ¬ 0 ≤ x.exponent)
    (hc : ¬ x.coefficient < 0) :
    floor x = mk' (shiftR x.coefficient (-x.exponent).toNat) 0 Real.default_precision := by
  unfold floor
  rw [if_neg he, if_neg hc]

theorem ceil_of_nonneg_coeff_mask {x : Real} (he : ¬ 0 ≤ x.exponent)
    (hc : ¬ x.coefficient < 0)
    (hm : Int.land x.coefficient (bitmask ((-x.exponent).toNat)) ≠ 0) :
    ceil x = mk' (shiftR x.coefficient ((-x.exponent).toNat) + 1) 0
      Real.default_precision := by
  unfold ceil
  rw [if_neg he, if_neg hc]
  simp only []
  rw [if_pos hm]

theorem ceil_of_nonneg_coeff_nomask {x : Real} (he : ¬ 0 ≤ x.exponent)
    (hc : ¬ x.coefficient < 0)
    (hm : ¬ Int.land x.coefficient (bitmask ((-x.exponent).toNat)) ≠ 0) :
    ceil x = mk' (shiftR x.coefficient ((-x.exponent).toNat)) 0
      Real.default_precision := by
  unfold ceil
  rw [if_neg he, if_neg hc]
  simp only []
  rw [if_neg hm]

theorem floorAux_of_exp_neg {x : Real} (he : ¬ 0 ≤ x.exponent) :
    floorAux x = mk' (shiftR x.coefficient (-x.exponent).toNat) 0
      Real.default_precision := by
  unfold floorAux
  rw [if_neg he]

theorem ceilAux_of_exp_neg_mask {x : Real} (he : ¬ 0 ≤ x.exponent)
    (hm : Int.land x.coefficient (bitmask ((-x.exponent).toNat)) ≠ 0) :
    ceilAux x = mk' (shiftR x.coefficient ((-x.exponent).toNat) + 1) 0
      Real.default_precision := by
  unfold ceilAux
  rw [if_neg he]
  simp only []
  rw [if_pos hm]

theorem ceilAux_of_exp_neg_nomask {x : Real} (he : ¬ 0 ≤ x.exponent)
    (hm : ¬ Int.land x.coefficient (bitmask ((-x.exponent).toNat)) ≠ 0) :
    ceilAux x = mk' (shiftR x.coefficient ((-x.exponent).toNat)) 0
      Real.default_precision := by
  unfold ceilAux
  rw [if_neg he]
  simp only []
  rw [if_neg hm]

/-! ## Values of floor and ceil results -/

theorem val_mk'_shiftL {c : Int} (E : Nat) (h2 : bit_length c ≤ 256) :
    val (mk' (shiftL c E) 0 Real.default_precision) = (c : ℚ) * 2 ^ (E : ℕ) := by
  rw [show Real.default_precision = (256 : Int) from rfl]
  have hdvd : (2 : Int) ^ (((bit_length (shiftL c E) : Int) - 256).toNat)
      ∣ shiftL c E := by
    have hble := bit_length_shiftL_le c E
    have hd : ((bit_length (shiftL c E) : Int) - 256).toNat ≤ E := by omega
    exact dvd_trans (pow_dvd_pow 2 hd) (dvd_mul_left (2 ^ E) c)
  rw [val_mk'_of_dvd hdvd, zpow_zero, mul_one]
  unfold shiftL
  push_cast
  ring

theorem natAbs_lt_two_pow_of_bit_length_le {c : Int} (h : bit_length c ≤ 256) :
    c.natAbs < 2 ^ 256 :=
  bit_length_le_iff.mp h

theorem val_shiftR_exact {c : Int} (E : Nat) (h2 : bit_length c ≤ 256) :
    val (mk' (shiftR c E) 0 Real.default_precision) = ((shiftR c E : Int) : ℚ) := by
  rw [show Real.default_precision = (256 : Int) from rfl]
  have hA : (shiftR c E).natAbs ≤ 2 ^ 256 :=
    Nat.le_trans (natAbs_shiftR_le c E)
      (le_of_lt (natAbs_lt_two_pow_of_bit_length_le h2))
  rw [val_mk'_of_natAbs_le hA, zpow_zero, mul_one]

theorem val_shiftR_succ_exact {c : Int} (E : Nat) (hc : 0 ≤ c)
    (h2 : bit_length c ≤ 256) :
    val (mk' (shiftR c E + 1) 0 Real.default_precision)
      = ((shiftR c E : Int) : ℚ) + 1 := by
  rw [show Real.default_precision = (256 : Int) from rfl]
  have hq0 : 0 ≤ shiftR c E := shiftR_nonneg hc E
  have hq1 : (shiftR c E).natAbs ≤ c.natAbs := natAbs_shiftR_le c E
  have hq2 : c.natAbs < 2 ^ 256 := natAbs_lt_two_pow_of_bit_length_le h2
  have hA : (shiftR c E + 1).natAbs ≤ 2 ^ 256 := by omega
  rw [val_mk'_of_natAbs_le hA, zpow_zero, mul_one]
  push_cast
  ring

theorem val_neg_small {z : Real} (h : z.coefficient.natAbs ≤ 2 ^ 256)
    (hp : z.precision = Real.default_precision) : val (neg z) = -(val z) := by
  unfold neg
  rw [hp, show Real.default_precision = (256 : Int) from rfl,
    val_mk'_of_natAbs_le (by simpa using h)]
  unfold val
  push_cast
  ring

theorem val_exp_nonneg (x : Real) (he : 0 ≤ x.exponent) :
    val x = (x.coefficient : ℚ) * 2 ^ (x.exponent.toNat : ℕ) := by
  unfold val
  rw [← zpow_natCast, Int.toNat_of_nonneg he]

theorem zpow_negExp {e : Int} (he : e < 0) :
    (2 : ℚ) ^ e = ((2 : ℚ) ^ (((-e).toNat : ℕ) : ℤ))⁻¹ := by
  have h1 : e = -(((-e).toNat : ℕ) : ℤ) := by omega
  conv_lhs => rw [h1]
  rw [zpow_neg]

theorem val_exp_neg (x : Real) (he : x.exponent < 0) :
    val x = (x.coefficient : ℚ) / 2 ^ (((-x.exponent).toNat) : ℕ) := by
  unfold val
  rw [zpow_negExp he, zpow_natCast, div_eq_mul_inv]

theorem neg_of_wf {x : Real} (h1 : (bit_length x.coefficient : Int) ≤ x.precision) :
    neg x = ⟨-x.coefficient, x.exponent, x.precision⟩ := by
  unfold neg
  exact mk'_of_bit_length_le (by rw [bit_length_neg]; exact h1)

theorem mk'_shiftR_natAbs_le {c : Int} {E : Nat} (h2 : bit_length c ≤ 256) :
    (mk' (shiftR c E) 0 Real.default_precision).coefficient.natAbs ≤ 2 ^ 256 := by
  have ha := mk'_natAbs_le (shiftR c E) 0 Real.default_precision
  have hb := natAbs_shiftR_le c E
  have hd := natAbs_lt_two_pow_of_bit_length_le h2
  omega

theorem mk'_shiftR_succ_natAbs_le {c : Int} {E : Nat} (hc : 0 ≤ c)
    (h2 : bit_length c ≤ 256) :
    (mk' (shiftR c E + 1) 0 Real.default_precision).coefficient.natAbs ≤ 2 ^ 256 := by
  have ha := mk'_natAbs_le (shiftR c E + 1) 0 Real.default_precision
  have hb := natAbs_shiftR_le c E
  have hd := natAbs_lt_two_pow_of_bit_length_le h2
  have hq0 : 0 ≤ shiftR c E := shiftR_nonneg hc E
  omega

theorem val_floor_le (x : Real)
    (h1 : (bit_length x.coefficient : Int) ≤ x.precision)
    (h2 : bit_length x.coefficient ≤ 256) :
    val (floor x) ≤ val x := by
  by_cases he : 0 ≤ x.exponent
  · rw [floor_of_exp_nonneg he, val_mk'_shiftL _ h2, val_exp_nonneg x he]
  · have hee : x.exponent < 0 := by omega
    have hE2 : (0:ℚ) < 2 ^ (((-x.exponent).toNat) : ℕ) := by positivity
    by_cases hc : x.coefficient < 0
    · rw [floor_of_neg_coeff he hc, neg_of_wf h1]
      have hbln : bit_length (-x.coefficient) ≤ 256 := by
        rw [bit_length_neg]; exact h2
      by_cases hm : Int.land (-x.coefficient) (bitmask ((-x.exponent).toNat)) ≠ 0
      · rw [ceilAux_of_exp_neg_mask
          (x := ⟨-x.coefficient, x.exponent, x.precision⟩) he hm]
        show val (neg (mk' (shiftR (-x.coefficient) ((-x.exponent).toNat) + 1) 0
          Real.default_precision)) ≤ val x
        rw [val_neg_small (mk'_shiftR_succ_natAbs_le (by omega) hbln)
          (mk'_precision _ _ _),
          val_shiftR_succ_exact _ (by omega) hbln, val_exp_neg x hee,
          le_div_iff hE2]
        have hint := lt_shiftR_add_one_mul (-x.coefficient) ((-x.exponent).toNat)
        have hcast : ((-x.coefficient : Int) : ℚ)
            < (((shiftR (-x.coefficient) ((-x.exponent).toNat) + 1)
              * 2 ^ ((-x.exponent).toNat) : Int) : ℚ) := by exact_mod_cast hint
        push_cast at hcast
        push_cast
        linarith
      · rw [ceilAux_of_exp_neg_nomask
          (x := ⟨-x.coefficient, x.exponent, x.precision⟩) he hm]
        show val (neg (mk' (shiftR (-x.coefficient) ((-x.exponent).toNat)) 0
          Real.default_precision)) ≤ val x
        push_neg at hm
        have hdvd : (2:Int) ^ ((-x.exponent).toNat) ∣ -x.coefficient := by
          apply Int.dvd_of_emod_eq_zero
          rw [← land_bitmask (show (0:Int) ≤ -x.coefficient by omega), hm]
        rw [val_neg_small (mk'_shiftR_natAbs_le hbln) (mk'_precision _ _ _),
          val_shiftR_exact _ hbln, val_exp_neg x hee, le_div_iff hE2]
        have hex := shiftR_eq_of_dvd hdvd
        have hcast : ((shiftR (-x.coefficient) ((-x.exponent).toNat)
            * 2 ^ ((-x.exponent).toNat) : Int) : ℚ)
            = ((-x.coefficient : Int) : ℚ) := by exact_mod_cast hex
        push_cast at hcast
        push_cast
        linarith
    · rw [floor_of_nonneg_coeff he hc, val_shiftR_exact _ h2, val_exp_neg x hee,
        le_div_iff hE2]
      exact_mod_cast shiftR_mul_le x.coefficient ((-x.exponent).toNat)

theorem val_le_ceil (x : Real)
    (h1 : (bit_length x.coefficient : Int) ≤ x.precision)
    (h2 : bit_length x.coefficient ≤ 256) :
    val x ≤ val (ceil x) := by
  by_cases he : 0 ≤ x.exponent
  · rw [ceil_of_exp_nonneg he, val_mk'_shiftL _ h2, val_exp_nonneg x he]
  · have hee : x.exponent < 0 := by omega
    have hE2 : (0:ℚ) < 2 ^ (((-x.exponent).toNat) : ℕ) := by positivity
    by_cases hc : x.coefficient < 0
    · rw [ceil_of_neg_coeff he hc, neg_of_wf h1]
      have hbln : bit_length (-x.coefficient) ≤ 256 := by
        rw [bit_length_neg]; exact h2
      rw [floorAux_of_exp_neg (x := ⟨-x.coefficient, x.exponent, x.precision⟩) he]
      show val x ≤ val (neg (mk' (shiftR (-x.coefficient) ((-x.exponent).toNat)) 0
        Real.default_precision))
      rw [val_neg_small (mk'_shiftR_natAbs_le hbln) (mk'_precision _ _ _),
        val_shiftR_exact _ hbln, val_exp_neg x hee, div_le_iff hE2]
      have hint := shiftR_mul_le (-x.coefficient) ((-x.exponent).toNat)
      have hcast : ((shiftR (-x.coefficient) ((-x.exponent).toNat)
          * 2 ^ ((-x.exponent).toNat) : Int) : ℚ)
          ≤ ((-x.coefficient : Int) : ℚ) := by exact_mod_cast hint
      push_cast at hcast
      push_cast
      linarith
    · by_cases hm : Int.land x.coefficient (bitmask ((-x.exponent).toNat)) ≠ 0
      · rw [ceil_of_nonneg_coeff_mask he hc hm, val_shiftR_succ_exact _ (by omega) h2,
          val_exp_neg x hee, div_le_iff hE2]
        have hint := lt_shiftR_add_one_mul x.coefficient ((-x.exponent).toNat)
        have hcast : ((x.coefficient : Int) : ℚ)
            < (((shiftR x.coefficient ((-x.exponent).toNat) + 1)
              * 2 ^ ((-x.exponent).toNat) : Int) : ℚ) := by exact_mod_cast hint
        push_cast at hcast
        push_cast
        linarith
      · rw [ceil_of_nonneg_coeff_nomask he hc hm, val_shiftR_exact _ h2,
          val_exp_neg x hee, div_le_iff hE2]
        push_neg at hm
        have hdvd : (2:Int) ^ ((-x.exponent).toNat) ∣ x.coefficient := by
          apply Int.dvd_of_emod_eq_zero
          rw [← land_bitmask (show (0:Int) ≤ x.coefficient by omega), hm]
        have hex := shiftR_eq_of_dvd hdvd
        have hcast : ((shiftR x.coefficient ((-x.exponent).toNat)
            * 2 ^ ((-x.exponent).toNat) : Int) : ℚ)
            = ((x.coefficient : Int) : ℚ) := by exact_mod_cast hex
        push_cast at hcast
        linarith

theorem val_floor_ceil_eq (x : Real)
    (h1 : (bit_length x.coefficient : Int) ≤ x.precision)
    (h2 : bit_length x.coefficient ≤ 256)
    (hint : 0 ≤ x.exponent ∨ (2:Int) ^ ((-x.exponent).toNat) ∣ x.coefficient) :
    val (floor x) = val x ∧ val (ceil x) = val x := by
  by_cases he : 0 ≤ x.exponent
  · constructor
    · rw [floor_of_exp_nonneg he, val_mk'_shiftL _ h2, val_exp_nonneg x he]
    · rw [ceil_of_exp_nonneg he, val_mk'_shiftL _ h2, val_exp_nonneg x he]
  · have hee : x.exponent < 0 := by omega
    have hE2 : (0:ℚ) < 2 ^ (((-x.exponent).toNat) : ℕ) := by positivity
    have hdvd : (2:Int) ^ ((-x.exponent).toNat) ∣ x.coefficient := hint.resolve_left he
    by_cases hc : x.coefficient < 0
    · have hbln : bit_length (-x.coefficient) ≤ 256 := by
        rw [bit_length_neg]; exact h2
      have hdvdn : (2:Int) ^ ((-x.exponent).toNat) ∣ -x.coefficient := hdvd.neg_right
      have hmn : ¬ Int.land (-x.coefficient) (bitmask ((-x.exponent).toNat)) ≠ 0 := by
        push_neg
        rw [land_bitmask (show (0:Int) ≤ -x.coefficient by omega)]
        exact Int.emod_eq_zero_of_dvd hdvdn
      have hex := shiftR_eq_of_dvd hdvdn
      have hcast : ((shiftR (-x.coefficient) ((-x.exponent).toNat)
          * 2 ^ ((-x.exponent).toNat) : Int) : ℚ)
          = ((-x.coefficient : Int) : ℚ) := by exact_mod_cast hex
      push_cast at hcast
      constructor
      · rw [floor_of_neg_coeff he hc, neg_of_wf h1,
          ceilAux_of_exp_neg_nomask
            (x := ⟨-x.coefficient, x.exponent, x.precision⟩) he hmn]
        show val (neg (mk' (shiftR (-x.coefficient) ((-x.exponent).toNat)) 0
          Real.default_precision)) = val x
        rw [val_neg_small (mk'_shiftR_natAbs_le hbln) (mk'_precision _ _ _),
          val_shiftR_exact _ hbln, val_exp_neg x hee,
          eq_div_iff (ne_of_gt hE2)]
        push_cast
        linarith
      · rw [ceil_of_neg_coeff he hc, neg_of_wf h1,
          floorAux_of_exp_neg (x := ⟨-x.coefficient, x.exponent, x.precision⟩) he]
        show val (neg (mk' (shiftR (-x.coefficient) ((-x.exponent).toNat)) 0
          Real.default_precision)) = val x
        rw [val_neg_small (mk'_shiftR_natAbs_le hbln) (mk'_precision _ _ _),
          val_shiftR_exact _ hbln, val_exp_neg x hee,
          eq_div_iff (ne_of_gt hE2)]
        push_cast
        linarith
    · have hmn : ¬ Int.land x.coefficient (bitmask ((-x.exponent).toNat)) ≠ 0 := by
        push_neg
        rw [land_bitmask (show (0:Int) ≤ x.coefficient by omega)]
        exact Int.emod_eq_zero_of_dvd hdvd
      have hex := shiftR_eq_of_dvd hdvd
      have hcast : ((shiftR x.coefficient ((-x.exponent).toNat)
          * 2 ^ ((-x.exponent).toNat) : Int) : ℚ)
          = ((x.coefficient : Int) : ℚ) := by exact_mod_cast hex
      push_cast at hcast
      constructor
      · rw [floor_of_nonneg_coeff he hc, val_shiftR_exact _ h2, val_exp_neg x hee,
          eq_div_iff (ne_of_gt hE2)]
        linarith
      · rw [ceil_of_nonneg_coeff_nomask he hc hmn, val_shiftR_exact _ h2,
          val_exp_neg x hee, eq_div_iff (ne_of_gt hE2)]
        linarith

/-! ## Result precisions of the integer-rounding operations -/

theorem neg_precision (x : Real) : (neg x).precision = x.precision := rfl

theorem floorAux_precision (x : Real) :
    (floorAux x).precision = Real.default_precision := by
  unfold floorAux
  split_ifs <;> rfl

theorem ceilAux_precision (x : Real) :
    (ceilAux x).precision = Real.default_precision := by
  unfold ceilAux
  dsimp only
  split_ifs <;> rfl

theorem floor_precision (x : Real) :
    (floor x).precision = Real.default_precision := by
  unfold floor
  split_ifs <;> first
    | rfl
    | rw [neg_precision, ceilAux_precision]

theorem ceil_precision (x : Real) :
    (ceil x).precision = Real.default_precision := by
  unfold ceil
  dsimp only
  split_ifs <;> first
    | rfl
    | rw [neg_precision, floorAux_precision]

theorem _round_precision (x : Real) :
    (_round x).precision = Real.default_precision := by
  unfold _round
  dsimp only
  split_ifs <;> rfl

/-! ## Auxiliary sign characterization of the comparator result -/

theorem sgn1_eq_zero_iff (S : Int) : sgn1 S = 0 ↔ S = 0 := by
  unfold sgn1
  split_ifs with h1 h2 <;> constructor <;> intro h <;> first | omega | exact h.elim

theorem sgn1_eq_one_iff (S : Int) : sgn1 S = 1 ↔ 0 < S := by
  unfold sgn1
  split_ifs with h1 h2 <;> constructor <;> intro h <;> first | omega | exact h.elim

theorem sgn1_eq_negOne_iff (S : Int) : sgn1 S = -1 ↔ S < 0 := by
  unfold sgn1
  split_ifs with h1 h2 <;> constructor <;> intro h <;> first | omega | exact h.elim

/-! ## Parser correctness on rendered shapes -/

theorem digitChar_isDigit {d : Nat} (h : d < 10) : (digitChar d).isDigit = true := by
  interval_cases d <;> decide

theorem digitVal_digitChar {d : Nat} (h : d < 10) : digitVal (digitChar d) = d := by
  interval_cases d <;> decide

theorem parseDigits_map_append (ds : List Nat) (rest : List Char) (acc n : Nat)
    (hds : ∀ d ∈ ds, d < 10)
    (hrest : ∀ ch l, rest = ch :: l → ch.isDigit = false) :
    parseDigits (ds.map digitChar ++ rest) acc n
      = (ds.foldl (fun a d => 10 * a + d) acc, n + ds.length, rest) := by
  induction ds generalizing acc n with
  | nil =>
    simp only [List.map_nil, List.nil_append, List.foldl_nil, List.length_nil,
      Nat.add_zero]
    cases rest with
    | nil => rfl
    | cons ch l =>
      have hch := hrest ch l rfl
      simp [parseDigits, hch]
  | cons d ds ih =>
    have hd : d < 10 := hds d (by simp)
    simp only [List.map_cons, List.cons_append, parseDigits,
      digitChar_isDigit hd, if_true, List.append_eq]
    rw [digitVal_digitChar hd, ih _ _ (fun d hm => hds d (by simp [hm]))]
    simp only [List.foldl_cons, List.length_cons, Prod.mk.injEq]
    exact ⟨trivial, by omega, trivial⟩

theorem parseSign_signChars (so : Option Bool) (ch : Char) (l : List Char)
    (hch : ch.isDigit = true) :
    parseSign (signChars so ++ ch :: l) = (so == some true, ch :: l) := by
  cases so with
  | none =>
    simp only [signChars, List.nil_append]
    unfold parseSign
    split
    · rename_i rest heq
      injection heq with hh ht
      rw [hh] at hch
      exact absurd hch (by decide)
    · rename_i rest heq
      injection heq with hh ht
      rw [hh] at hch
      exact absurd hch (by decide)
    · rfl
  | some b => cases b <;> rfl

theorem foldl_digits_acc (l : List Nat) (acc : Nat) :
    l.foldl (fun a d => 10 * a + d) acc = acc * 10 ^ l.length + digitsVal l := by
  induction l generalizing acc with
  | nil => simp [digitsVal]
  | cons d l ih =>
    have h2 : digitsVal (d :: l) = d * 10 ^ l.length + digitsVal l := by
      rw [show digitsVal (d :: l)
        = List.foldl (fun a d => 10 * a + d) (10 * 0 + d) l from rfl, ih]
      ring_nf
    simp only [List.foldl_cons, List.length_cons]
    rw [ih (10 * acc + d), h2]
    ring

theorem fracSplit_nil : fracSplit [] = (0, 0, []) := rfl

theorem fracSplit_dot (rest : List Char) :
    fracSplit ('.' :: rest) = parseDigits rest 0 0 := rfl

theorem fracSplit_other (ch : Char) (t : List Char) (h : ch ≠ '.') :
    fracSplit (ch :: t) = (0, 0, ch :: t) := by
  unfold fracSplit
  split
  · rename_i rest heq
    injection heq with hh ht
    exact absurd hh h
  · rfl

theorem expSplit_nil (d : Int) (nf : Nat) (p : Int) :
    expSplit d nf p [] = some (decimal_to_binary d (-(nf : Int)) p) := rfl

theorem expSplit_e (d : Int) (nf : Nat) (p : Int) (r4 : List Char) :
    expSplit d nf p ('e' :: r4)
      = (if (parseDigits (parseSign r4).2 0 0).2.1 = 0
            ∨ (parseDigits (parseSign r4).2 0 0).2.2 ≠ [] then none
         else some (decimal_to_binary d
           ((if (parseSign r4).1 then -((parseDigits (parseSign r4).2 0 0).1 : Int)
             else ((parseDigits (parseSign r4).2 0 0).1 : Int)) - (nf : Int)) p)) := rfl

theorem digitsVal_append (a b : List Nat) :
    digitsVal (a ++ b) = digitsVal a * 10 ^ b.length + digitsVal b := by
  rw [show digitsVal (a ++ b)
    = (a ++ b).foldl (fun a d => 10 * a + d) 0 from rfl, List.foldl_append]
  exact foldl_digits_acc b (digitsVal a)

/-- Every well-formed decimal string (rendered from a valid shape) parses
successfully to the binary conversion of its exact decimal value
`d * 10 ^ e`. -/
theorem real_from_str_renderDec (sh : DecShape) (hval : validShape sh = true)
    (p : Int) :
    real_from_str (renderDec sh) p
      = some (decimal_to_binary (shapeCoefficient sh) (shapeExponent sh) p) := by
  obtain ⟨so, ints, fracs, expo⟩ := sh
  simp only [validShape, Bool.and_eq_true, Bool.not_eq_true',
    List.isEmpty_eq_false_iff_exists_mem, List.all_eq_true,
    decide_eq_true_eq] at hval
  obtain ⟨⟨⟨hine, hi10⟩, hf10⟩, hexp⟩ := hval
  obtain ⟨d0, ints', rfl⟩ : ∃ d0 ints', ints = d0 :: ints' := by
    cases ints with
    | nil => obtain ⟨x, hx⟩ := hine; exact absurd hx (by simp)
    | cons a l => exact ⟨a, l, rfl⟩
  have hd0 : d0 < 10 := hi10 d0 (by simp)
  cases fracs with
  | nil =>
    cases expo with
    | none =>
      simp only [renderDec, real_from_str, List.append_nil, List.nil_append,
        List.map_cons, List.cons_append, List.append_assoc]
      rw [parseSign_signChars so (digitChar d0) (List.map digitChar ints')
        (digitChar_isDigit hd0)]
      simp only []
      rw [show (digitChar d0 :: List.map digitChar ints' : List Char)
        = List.map digitChar (d0 :: ints') ++ [] from by simp]
      rw [parseDigits_map_append (d0 :: ints') [] 0 0 hi10
        (fun ch l h => nomatch h)]
      simp only [List.length_cons, Nat.zero_add]
      rw [if_neg (show ¬(ints'.length + 1 = 0) by omega)]
      rw [fracSplit_nil]
      simp only [expSplit_nil]
      simp [shapeCoefficient, shapeExponent, digitsVal]
    | some q =>
      obtain ⟨sE, eds⟩ := q
      simp only [Bool.and_eq_true, Bool.not_eq_true',
        List.isEmpty_eq_false_iff_exists_mem, List.all_eq_true,
        decide_eq_true_eq] at hexp
      obtain ⟨hene, he10⟩ := hexp
      obtain ⟨e0, eds', rfl⟩ : ∃ e0 eds', eds = e0 :: eds' := by
        cases eds with
        | nil => obtain ⟨x, hx⟩ := hene; exact absurd hx (by simp)
        | cons a l => exact ⟨a, l, rfl⟩
      have he0 : e0 < 10 := he10 e0 (by simp)
      simp only [renderDec, real_from_str, List.append_nil, List.nil_append,
        List.map_cons, List.cons_append, List.append_assoc]
      rw [parseSign_signChars so (digitChar d0)
        (List.map digitChar ints'
          ++ 'e' :: (signChars sE ++ digitChar e0 :: List.map digitChar eds'))
        (digitChar_isDigit hd0)]
      simp only []
      rw [show (digitChar d0 :: (List.map digitChar ints'
          ++ 'e' :: (signChars sE ++ digitChar e0 :: List.map digitChar eds')) : List Char)
        = List.map digitChar (d0 :: ints')
          ++ 'e' :: (signChars sE ++ digitChar e0 :: List.map digitChar eds') from by simp]
      rw [parseDigits_map_append (d0 :: ints') _ 0 0 hi10
        (fun ch l h => by injection h with h1 h2; rw [← h1]; decide)]
      simp only [List.length_cons, Nat.zero_add]
      rw [if_neg (show ¬(ints'.length + 1 = 0) by omega)]
      rw [fracSplit_other 'e' _ (by decide)]
      simp only [expSplit_e]
      rw [parseSign_signChars sE (digitChar e0) (List.map digitChar eds')
        (digitChar_isDigit he0)]
      simp only []
      rw [show (digitChar e0 :: List.map digitChar eds' : List Char)
        = List.map digitChar (e0 :: eds') ++ [] from by simp]
      rw [parseDigits_map_append (e0 :: eds') [] 0 0 he10
        (fun ch l h => nomatch h)]
      simp only [List.length_cons, Nat.zero_add]
      rw [if_neg (show ¬((eds'.length + 1 = 0) ∨ (([]:List Char) ≠ [])) by
        push_neg
        exact ⟨by omega, rfl⟩)]
      simp [shapeCoefficient, shapeExponent, digitsVal]
  | cons f0 fr =>
    have hf0 : f0 < 10 := hf10 f0 (by simp)
    cases expo with
    | none =>
      simp only [renderDec, real_from_str, List.append_nil, List.nil_append,
        List.map_cons, List.cons_append, List.append_assoc]
      rw [parseSign_signChars so (digitChar d0)
        (List.map digitChar ints' ++ '.' :: (digitChar f0 :: List.map digitChar fr))
        (digitChar_isDigit hd0)]
      simp only []
      rw [show (digitChar d0 :: (List.map digitChar ints'
          ++ '.' :: (digitChar f0 :: List.map digitChar fr)) : List Char)
        = List.map digitChar (d0 :: ints')
          ++ '.' :: (digitChar f0 :: List.map digitChar fr) from by simp]
      rw [parseDigits_map_append (d0 :: ints') _ 0 0 hi10
        (fun ch l h => by injection h with h1 h2; rw [← h1]; decide)]
      simp only [List.length_cons, Nat.zero_add]
      rw [if_neg (show ¬(ints'.length + 1 = 0) by omega)]
      rw [fracSplit_dot]
      rw [show (digitChar f0 :: List.map digitChar fr : List Char)
        = List.map digitChar (f0 :: fr) ++ [] from by simp]
      rw [parseDigits_map_append (f0 :: fr) [] 0 0 hf10
        (fun ch l h => nomatch h)]
      simp only [List.length_cons, Nat.zero_add]
      simp only [expSplit_nil]
      simp [shapeCoefficient, shapeExponent, digitsVal]
      have hkey : List.foldl (fun a d => 10 * a + d)
          (10 * List.foldl (fun a d => 10 * a + d) d0 ints' + f0) fr
          = List.foldl (fun a d => 10 * a + d) d0 ints' * 10 ^ (fr.length + 1)
            + List.foldl (fun a d => 10 * a + d) f0 fr := by
        rw [show List.foldl (fun a d => 10 * a + d)
            (10 * List.foldl (fun a d => 10 * a + d) d0 ints' + f0) fr
          = List.foldl (fun a d => 10 * a + d)
            (List.foldl (fun a d => 10 * a + d) d0 ints') (f0 :: fr) from rfl]
        rw [foldl_digits_acc]
        simp [digitsVal]
      rw [hkey]
      by_cases hso : so = some true <;> simp [hso]
    | some q =>
      obtain ⟨sE, eds⟩ := q
      simp only [Bool.and_eq_true, Bool.not_eq_true',
        List.isEmpty_eq_false_iff_exists_mem, List.all_eq_true,
        decide_eq_true_eq] at hexp
      obtain ⟨hene, he10⟩ := hexp
      obtain ⟨e0, eds', rfl⟩ : ∃ e0 eds', eds = e0 :: eds' := by
        cases eds with
        | nil => obtain ⟨x, hx⟩ := hene; exact absurd hx (by simp)
        | cons a l => exact ⟨a, l, rfl⟩
      have he0 : e0 < 10 := he10 e0 (by simp)
      simp only [renderDec, real_from_str, List.append_nil, List.nil_append,
        List.map_cons, List.cons_append, List.append_assoc]
      rw [parseSign_signChars so (digitChar d0)
        (List.map digitChar ints' ++ '.' :: (digitChar f0 :: (List.map digitChar fr
          ++ 'e' :: (signChars sE ++ digitChar e0 :: List.map digitChar eds'))))
        (digitChar_isDigit hd0)]
      simp only []
      rw [show (digitChar d0 :: (List.map digitChar ints'
          ++ '.' :: (digitChar f0 :: (List.map digitChar fr
            ++ 'e' :: (signChars sE ++ digitChar e0 :: List.map digitChar eds')))) : List Char)
        = List.map digitChar (d0 :: ints')
          ++ '.' :: (digitChar f0 :: (List.map digitChar fr
            ++ 'e' :: (signChars sE ++ digitChar e0 :: List.map digitChar eds'))) from by simp]
      rw [parseDigits_map_append (d0 :: ints') _ 0 0 hi10
        (fun ch l h => by injection h with h1 h2; rw [← h1]; decide)]
      simp only [List.length_cons, Nat.zero_add]
      rw [if_neg (show ¬(ints'.length + 1 = 0) by omega)]
      rw [fracSplit_dot]
      rw [show (digitChar f0 :: (List.map digitChar fr
          ++ 'e' :: (signChars sE ++ digitChar e0 :: List.map digitChar eds')) : List Char)
        = List.map digitChar (f0 :: fr)
          ++ 'e' :: (signChars sE ++ digitChar e0 :: List.map digitChar eds') from by simp]
      rw [parseDigits_map_append (f0 :: fr) _ 0 0 hf10
        (fun ch l h => by injection h with h1 h2; rw [← h1]; decide)]
      simp only [List.length_cons, Nat.zero_add]
      simp only [expSplit_e]
      rw [parseSign_signChars sE (digitChar e0) (List.map digitChar eds')
        (digitChar_isDigit he0)]
      simp only []
      rw [show (digitChar e0 :: List.map digitChar eds' : List Char)
        = List.map digitChar (e0 :: eds') ++ [] from by simp]
      rw [parseDigits_map_append (e0 :: eds') [] 0 0 he10
        (fun ch l h => nomatch h)]
      simp only [List.length_cons, Nat.zero_add]
      rw [if_neg (show ¬((eds'.length + 1 = 0) ∨ (([]:List Char) ≠ [])) by
        push_neg
        exact ⟨by omega, rfl⟩)]
      simp [shapeCoefficient, shapeExponent, digitsVal]
      have hkey : List.foldl (fun a d => 10 * a + d)
          (10 * List.foldl (fun a d => 10 * a + d) d0 ints' + f0) fr
          = List.foldl (fun a d => 10 * a + d) d0 ints' * 10 ^ (fr.length + 1)
            + List.foldl (fun a d => 10 * a + d) f0 fr := by
        rw [show List.foldl (fun a d => 10 * a + d)
            (10 * List.foldl (fun a d => 10 * a + d) d0 ints' + f0) fr
          = List.foldl (fun a d => 10 * a + d)
            (List.foldl (fun a d => 10 * a + d) d0 ints') (f0 :: fr) from rfl]
        rw [foldl_digits_acc]
        simp [digitsVal]
      rw [hkey]
      by_cases hso : so = some true <;> simp [hso]

/-! # The claims -/

/-- C1: the claim states that `compare(x, y)` and `sub(x, y)` leave the
stored fields of both operands unchanged.  This fails on the code:
`compare` executes `y.coefficient = -y.coefficient` on the caller's `y` and
never restores it (while `sub`, which follows the same pattern, does
restore it), contradicting the module's own design in `sub` and breaking
every later use of `y`.  At `x = Real(3, 0, precision=8)`,
`y = Real(2, 0, precision=8)`, after `compare(x, y)` the caller's `y` holds
coefficient `-2`; `sub` on the same operands returns both operands
unchanged. -/
theorem C1_compare_mutates_operand :
    (compare (mk' 3 0 8) (mk' 2 0 8)).2.2.coefficient = -2 ∧
    (mk' 2 0 8).coefficient = 2 ∧
    (sub (mk' 3 0 8) (mk' 2 0 8)).2.1 = mk' 3 0 8 ∧
    (sub (mk' 3 0 8) (mk' 2 0 8)).2.2 = mk' 2 0 8 := by decide

/-- C2 (counterexample): the claim says `compare` reports equality exactly
when the difference coefficient `d` of `x - y` satisfies `|d| <= 4`.  At
`x = Real(3, 0, precision=8)`, `y = Real(2, 0, precision=8)` the difference
coefficient is `1`, so `|d| <= 4`, yet `compare` returns `1` (strictly
greater), refuting the claim. -/
theorem C2_tolerance_counterexample :
    (sub (mk' 3 0 8) (mk' 2 0 8)).1.coefficient = 1 ∧
    (sub (mk' 3 0 8) (mk' 2 0 8)).1.coefficient.natAbs ≤ 4 ∧
    (compare (mk' 3 0 8) (mk' 2 0 8)).1 = 1 := by decide

/-- C2 (amended): `compare(x, y)` reports equality exactly when the
difference coefficient of `sub(x, y)` is zero, and strict
greater/less exactly when that coefficient is positive/negative: the
comparator's tolerance is zero, not a positive epsilon. -/
theorem C2_compare_exact (x y : Real)
    (hx : 0 < x.precision) (hy : 0 < y.precision) :
    ((compare x y).1 = 0 ↔ (sub x y).1.coefficient = 0) ∧
    ((compare x y).1 = 1 ↔ 0 < (sub x y).1.coefficient) ∧
    ((compare x y).1 = -1 ↔ (sub x y).1.coefficient < 0) := by
  simp only [compare, sub, add]
  by_cases hsw : y.exponent < x.exponent
  · rw [if_pos (show (⟨-y.coefficient, y.exponent, y.precision⟩ : Real).exponent
      < x.exponent from hsw)]
    have hp : 0 < min (⟨-y.coefficient, y.exponent, y.precision⟩ : Real).precision
        x.precision := lt_min hy hx
    refine ⟨?_, ?_, ?_⟩
    · rw [sgn1_eq_zero_iff, mk'_coeff_eq_zero_iff hp]
    · rw [sgn1_eq_one_iff, mk'_coeff_pos_iff hp]
    · rw [sgn1_eq_negOne_iff, mk'_coeff_neg_iff]
  · rw [if_neg (show ¬ ((⟨-y.coefficient, y.exponent, y.precision⟩ : Real).exponent
      < x.exponent) from hsw)]
    have hp : 0 < min x.precision
        (⟨-y.coefficient, y.exponent, y.precision⟩ : Real).precision := lt_min hx hy
    refine ⟨?_, ?_, ?_⟩
    · rw [sgn1_eq_zero_iff, mk'_coeff_eq_zero_iff hp]
    · rw [sgn1_eq_one_iff, mk'_coeff_pos_iff hp]
    · rw [sgn1_eq_negOne_iff, mk'_coeff_neg_iff]

/-- C2 (witness): the amended comparator characterization instantiated at
`Real(5, 0, precision=8)` and `Real(3, 0, precision=8)`. -/
theorem C2_compare_exact_witness :
    (0 < (mk' 5 0 8).precision ∧ 0 < (mk' 3 0 8).precision) ∧
    (((compare (mk' 5 0 8) (mk' 3 0 8)).1 = 0
        ↔ (sub (mk' 5 0 8) (mk' 3 0 8)).1.coefficient = 0) ∧
     ((compare (mk' 5 0 8) (mk' 3 0 8)).1 = 1
        ↔ 0 < (sub (mk' 5 0 8) (mk' 3 0 8)).1.coefficient) ∧
     ((compare (mk' 5 0 8) (mk' 3 0 8)).1 = -1
        ↔ (sub (mk' 5 0 8) (mk' 3 0 8)).1.coefficient < 0)) :=
  ⟨⟨by decide, by decide⟩, C2_compare_exact (mk' 5 0 8) (mk' 3 0 8) (by decide) (by decide)⟩

/-- C3 (counterexample): the claim says `normalize` left-shifts the
coefficient by the deficit when `bit_length(coefficient) < precision`
(padding to the configured width).  At `(coefficient, exponent, precision)
= (1, 0, 8)` the deficit is 7, so the claim predicts `(1 << 7, -7)`; the
code leaves `(1, 0)` unchanged — `normalize` has no left-shift branch. -/
theorem C3_no_left_shift_counterexample :
    bit_length 1 < 8 ∧ normalize 1 0 8 = (1, 0) ∧
    normalize 1 0 8 ≠ (shiftL 1 7, -7) := by decide

/-- C3 (amended): `normalize` is one-directional.  When
`bit_length(coefficient) <= precision` it returns the pair unchanged (no
left-shift padding); when `bit_length(coefficient) > precision` it
arithmetically right-shifts the coefficient by the excess `d`, adds `d` to
the exponent, and the shifted coefficient is exactly the floor of
`coefficient / 2^d` (the discarded low bits are dropped):
`c' * 2^d <= c < (c' + 1) * 2^d`. -/
theorem C3_normalize_one_directional (c e p : Int) :
    ((bit_length c : Int) ≤ p → normalize c e p = (c, e)) ∧
    (p < (bit_length c : Int) →
      normalize c e p = (shiftR c ((bit_length c : Int) - p).toNat,
        e + ((bit_length c : Int) - p)) ∧
      shiftR c ((bit_length c : Int) - p).toNat
          * 2 ^ (((bit_length c : Int) - p).toNat) ≤ c ∧
      c < (shiftR c ((bit_length c : Int) - p).toNat + 1)
          * 2 ^ (((bit_length c : Int) - p).toNat)) := by
  constructor
  · intro h
    simp only [normalize]
    rw [if_neg (by omega)]
  · intro h
    refine ⟨?_, shiftR_mul_le _ _, lt_shiftR_add_one_mul _ _⟩
    simp only [normalize]
    rw [if_pos (by omega)]

/-- C3 (witness): the amended normalization behaviour at `(3, 0, 8)`
(within precision: unchanged) and at `(12, 3, 2)` (two excess bits:
truncating right shift). -/
theorem C3_normalize_witness :
    normalize 3 0 8 = (3, 0) ∧
    (normalize 12 3 2 = (shiftR 12 ((bit_length 12 : Int) - 2).toNat,
        3 + ((bit_length 12 : Int) - 2)) ∧
      shiftR 12 ((bit_length 12 : Int) - 2).toNat
          * 2 ^ (((bit_length 12 : Int) - 2).toNat) ≤ 12 ∧
      (12 : Int) < (shiftR 12 ((bit_length 12 : Int) - 2).toNat + 1)
          * 2 ^ (((bit_length 12 : Int) - 2).toNat)) :=
  ⟨(C3_normalize_one_directional 3 0 8).1 (by decide),
   (C3_normalize_one_directional 12 3 2).2 (by decide)⟩

/-- C4: the claim (and the docstring of `normalize` itself) says every
constructed Real satisfies `bit_length(coefficient) <= precision`.  The
code violates it: Python's `>>` on negative numbers rounds toward minus
infinity, so `Real(-15, 0, precision=3)` normalizes to coefficient
`-15 >> 1 = -8`, whose bit length is 4 > 3. -/
theorem C4_invariant_violated_for_negative :
    mk' (-15) 0 3 = ⟨-8, 1, 3⟩ ∧
    ¬ ((bit_length (mk' (-15) 0 3).coefficient : Int)
        ≤ (mk' (-15) 0 3).precision) := by decide

/-- C5: `div(x, y)` fails with `InvalidOperationError` exactly when
`y.coefficient == 0` (and then returns no value), and otherwise returns
the Real built from `(x.coefficient << k) // y.coefficient` with guard
bits `k = 2 * max(px, py) + 1`, exponent `x.exponent - y.exponent - k`,
precision `min(px, py)`, normalized by the constructor. -/
theorem C5_div_spec (x y : Real) (hx : 0 < x.precision) (hy : 0 < y.precision) :
    (y.coefficient = 0 →
      div x y = .error (Err.invalidOperation ("Cannot divide a Real by 0"))) ∧
    (y.coefficient ≠ 0 →
      div x y = .ok (mk'
        (Int.fdiv (shiftL x.coefficient (2 * max x.precision y.precision + 1).toNat)
          y.coefficient)
        (x.exponent - y.exponent - (2 * max x.precision y.precision + 1))
        (min x.precision y.precision))) := by
  constructor
  · intro h
    simp only [div]
    rw [if_pos h]
  · intro h
    simp only [div, mkChecked]
    rw [if_neg h, if_neg (by omega)]

/-- C5 (witness): division by `Real(0, 0, precision=4)` fails with the
domain error; `Real(1, precision=4) / Real(3, precision=4)` returns the
guarded quotient. -/
theorem C5_div_spec_witness :
    div (mk' 1 0 4) (mk' 0 0 4)
      = .error (Err.invalidOperation ("Cannot divide a Real by 0")) ∧
    div (mk' 1 0 4) (mk' 3 0 4) = .ok (mk'
      (Int.fdiv (shiftL (mk' 1 0 4).coefficient
        (2 * max (mk' 1 0 4).precision (mk' 3 0 4).precision + 1).toNat)
        (mk' 3 0 4).coefficient)
      ((mk' 1 0 4).exponent - (mk' 3 0 4).exponent
        - (2 * max (mk' 1 0 4).precision (mk' 3 0 4).precision + 1))
      (min (mk' 1 0 4).precision (mk' 3 0 4).precision)) :=
  ⟨(C5_div_spec (mk' 1 0 4) (mk' 0 0 4) (by decide) (by decide)).1 (by decide),
   (C5_div_spec (mk' 1 0 4) (mk' 3 0 4) (by decide) (by decide)).2 (by decide)⟩

/-- C6 (counterexample): the claim says a zero Real always has exponent 0.
Constructing `Real(0, 5, precision=8)` keeps exponent 5: `normalize` does
not touch a zero coefficient's exponent and no canonicalization exists. -/
theorem C6_zero_not_canonicalized :
    (mk' 0 5 8).exponent = 5 ∧ (mk' 0 5 8).exponent ≠ 0 := by decide

/-- C6 (amended): a Real constructed with coefficient 0 keeps exactly the
exponent it was given (for any valid precision); zero is not canonicalized
to exponent 0. -/
theorem C6_zero_keeps_exponent (e p : Int) (hp : 0 < p) :
    mkChecked 0 e p = .ok ⟨0, e, p⟩ := by
  unfold mkChecked
  rw [if_neg (by omega), mk'_of_bit_length_le (by rw [bit_length_zero]; omega)]

/-- C6 (witness): constructing a zero Real with exponent 5 and precision 8
yields exactly the fields `(0, 5, 8)`. -/
theorem C6_zero_keeps_exponent_witness : mkChecked 0 5 8 = .ok ⟨0, 5, 8⟩ :=
  C6_zero_keeps_exponent 5 8 (by decide)

set_option maxRecDepth 100000 in
/-- C7 (counterexample): the claim says `floor(x) <= x <= ceil(x)` for
every Real `x`.  For `x = Real(2^300 + 1, -1, precision=301)` (a
well-formed Real: 301 coefficient bits within its precision), `ceil(x)` is
built at the fixed default precision 256, which truncates the 301-bit
integer result down to `2^299 < x`, so the comparator reports `x > ceil(x)`. -/
theorem C7_ceil_lt_self_counterexample :
    (bit_length ((2:Int) ^ 300 + 1) : Int) ≤ 301 ∧
    (compare ⟨2 ^ 300 + 1, -1, 301⟩ (ceil ⟨2 ^ 300 + 1, -1, 301⟩)).1 = 1 := by decide

/-- C7 (amended): for every Real `x` satisfying the intended
representation invariant `bit_length(coefficient) <= precision` and whose
coefficient also fits in the default precision
(`bit_length(coefficient) <= 256`, the precision at which `floor`/`ceil`
build their results), the comparator confirms
`floor(x) <= x <= ceil(x)`, and both are comparator-equal to `x` whenever
`x` is an exact integer at its exponent scale (nonnegative exponent, or no
set bits below the unit position). -/
theorem C7_floor_le_le_ceil (x : Real)
    (h1 : (bit_length x.coefficient : Int) ≤ x.precision)
    (h2 : bit_length x.coefficient ≤ 256) :
    (compare (floor x) x).1 ≤ 0 ∧ (compare x (ceil x)).1 ≤ 0 ∧
    ((0 ≤ x.exponent ∨ (2 : Int) ^ ((-x.exponent).toNat) ∣ x.coefficient) →
      (compare (floor x) x).1 = 0 ∧ (compare x (ceil x)).1 = 0) := by
  obtain ⟨hf1, hf2, hf3⟩ := compare_spec (floor x) x
  obtain ⟨hc1, hc2, hc3⟩ := compare_spec x (ceil x)
  have hfl := val_floor_le x h1 h2
  have hcl := val_le_ceil x h1 h2
  refine ⟨?_, ?_, ?_⟩
  · rcases eq_or_lt_of_le hfl with h | h
    · have := hf2.mpr h
      omega
    · have := hf3.mpr h
      omega
  · rcases eq_or_lt_of_le hcl with h | h
    · have := hc2.mpr h
      omega
    · have := hc3.mpr h
      omega
  · intro hint
    obtain ⟨he1, he2⟩ := val_floor_ceil_eq x h1 h2 hint
    exact ⟨hf2.mpr he1, hc2.mpr he2.symm⟩

/-- C7 (witness): the amended statement at `x = Real(5, -1, precision=8)`
(representing 2.5). -/
theorem C7_floor_le_le_ceil_witness :
    ((bit_length (mk' 5 (-1) 8).coefficient : Int) ≤ (mk' 5 (-1) 8).precision ∧
     bit_length (mk' 5 (-1) 8).coefficient ≤ 256) ∧
    ((compare (floor (mk' 5 (-1) 8)) (mk' 5 (-1) 8)).1 ≤ 0 ∧
     (compare (mk' 5 (-1) 8) (ceil (mk' 5 (-1) 8))).1 ≤ 0 ∧
     ((0 ≤ (mk' 5 (-1) 8).exponent ∨
        (2 : Int) ^ ((-(mk' 5 (-1) 8).exponent).toNat) ∣ (mk' 5 (-1) 8).coefficient) →
       (compare (floor (mk' 5 (-1) 8)) (mk' 5 (-1) 8)).1 = 0 ∧
       (compare (mk' 5 (-1) 8) (ceil (mk' 5 (-1) 8))).1 = 0)) :=
  ⟨⟨by decide, by decide⟩, C7_floor_le_le_ceil (mk' 5 (-1) 8) (by decide) (by decide)⟩

/-- C9: the claim says `power(x, y)` with `x <= 0` (nonzero) and `y` a
nonzero non-integer fails with `InvalidOperationError`.  It does not: once
both zero-coefficient tests fail, `_pow` evaluates `y.isint()`, but the
class defines `is_int` (itself an unimplemented stub), not `isint`, so the
call raises `AttributeError` — a different kind of error — before the
domain check can run.  Shown at `x = Real(-2)`, `y = Real(1, -1)` (= 0.5,
a non-integer: odd coefficient at a negative exponent). -/
theorem C9_pow_attribute_error :
    (mk' (-2) 0 256).coefficient < 0 ∧
    (mk' 1 (-1) 256).coefficient ≠ 0 ∧ (mk' 1 (-1) 256).exponent < 0 ∧
    (mk' 1 (-1) 256).coefficient % 2 ≠ 0 ∧
    _pow (mk' (-2) 0 256) (mk' 1 (-1) 256)
      = .error (Err.attributeError ("Real object has no attribute isint")) := by decide

set_option maxRecDepth 600000 in
/-- C8 (counterexample): the claim's concrete instance says the string
`"123.456e2"` constructs a Value comparator-equal to `Value(12345600)`.
Parsed by the spec's own rule, `123.456e2` denotes
`123456 * 10^(2-3) = 12345.6`, so the comparator reports the constructed
value strictly less than `Value(12345600)`.  (`real_from_str` is modelled
from the spec; its body is missing from src/real.py.) -/
theorem C8_concrete_instance_counterexample :
    (real_of_str ("123.456e2") Real.default_precision).map
      (fun r => (compare r (mk' 12345600 0 Real.default_precision)).1)
      = some (-1) := by decide

set_option maxRecDepth 600000 in
/-- C8 (amended): every well-formed decimal string — optional sign,
integer digits, optional fractional digits, optional decimal exponent
suffix — constructs successfully, yielding the exact decimal value
`d * 10^e` converted to binary at the requested precision
(`decimal_to_binary`) and normalized by the constructor; and the concrete
instance `"123.456e2"` yields a Value comparator-equal to the quotient
`Value(123456) / Value(10)` at default precision (the string denotes
12345.6, not 12345600) — indeed the two are the very same stored value. -/
theorem C8_decimal_string_construction :
    (∀ sh : DecShape, validShape sh = true →
      real_of_str (renderDec sh) Real.default_precision
        = some (mk'
          (decimal_to_binary (shapeCoefficient sh) (shapeExponent sh)
            Real.default_precision).1
          (decimal_to_binary (shapeCoefficient sh) (shapeExponent sh)
            Real.default_precision).2
          Real.default_precision)) ∧
    (∃ r : Real, real_of_str ("123.456e2") Real.default_precision = some r ∧
      div (mk' 123456 0 Real.default_precision) (mk' 10 0 Real.default_precision)
        = .ok r ∧ (compare r r).1 = 0) := by
  constructor
  · intro sh h
    unfold real_of_str
    rw [real_from_str_renderDec sh h]
    rfl
  · refine ⟨⟨Int.fdiv (123456 * 2 ^ 242) 10, -242, 256⟩, ?_, ?_, ?_⟩
    · decide
    · decide
    · decide

set_option maxRecDepth 600000 in
/-- C8 (witness): the general parsing statement instantiated at the shape
of `"123.456e2"` (no sign, digits 123, fraction 456, exponent +2). -/
theorem C8_decimal_string_construction_witness :
    renderDec ⟨none, [1, 2, 3], [4, 5, 6], some (none, [2])⟩ = ("123.456e2") ∧
    validShape (⟨none, [1, 2, 3], [4, 5, 6], some (none, [2])⟩ : DecShape) = true ∧
    real_of_str (renderDec ⟨none, [1, 2, 3], [4, 5, 6], some (none, [2])⟩)
        Real.default_precision
      = some (mk'
        (decimal_to_binary
          (shapeCoefficient ⟨none, [1, 2, 3], [4, 5, 6], some (none, [2])⟩)
          (shapeExponent ⟨none, [1, 2, 3], [4, 5, 6], some (none, [2])⟩)
          Real.default_precision).1
        (decimal_to_binary
          (shapeCoefficient ⟨none, [1, 2, 3], [4, 5, 6], some (none, [2])⟩)
          (shapeExponent ⟨none, [1, 2, 3], [4, 5, 6], some (none, [2])⟩)
          Real.default_precision).2
        Real.default_precision) :=
  ⟨by decide, by decide,
   C8_decimal_string_construction.1 ⟨none, [1, 2, 3], [4, 5, 6], some (none, [2])⟩
     (by decide)⟩

set_option maxRecDepth 1000000 in
/-- C10: `round`, `floor` and `ceil` always build their results at the
fixed default precision (256 bits) instead of inheriting `x.precision`;
consequently, for `x = Real(2^300 + 1, 0, precision=301)` — already an
exact integer whose precision exceeds the default — `floor(x)` silently
truncates the low bits: its value `2^255 * 2^45 = 2^300` differs from
`x`'s value `2^300 + 1`. -/
theorem C10_default_precision_truncates :
    (∀ x : Real, (floor x).precision = Real.default_precision ∧
      (ceil x).precision = Real.default_precision ∧
      (_round x).precision = Real.default_precision) ∧
    (Real.default_precision < (mk' (2 ^ 300 + 1) 0 301).precision ∧
     val (floor (mk' (2 ^ 300 + 1) 0 301)) ≠ val (mk' (2 ^ 300 + 1) 0 301)) := by
  refine ⟨fun x => ⟨floor_precision x, ceil_precision x, _round_precision x⟩, ?_, ?_⟩
  · rw [mk'_precision]
    norm_num [Real.default_precision]
  · have h1 : floor (mk' (2 ^ 300 + 1) 0 301) = ⟨2 ^ 255, 45, 256⟩ := by decide
    have h2 : mk' ((2:Int) ^ 300 + 1) 0 301 = ⟨2 ^ 300 + 1, 0, 301⟩ := by decide
    rw [h1, h2, val_mk, val_mk]
    have key : ((2 ^ 255 : Int) : ℚ) * (2 : ℚ) ^ (45 : Int) = ((2 ^ 300 : Int) : ℚ) := by
      rw [show ((45 : Int)) = (((45 : ℕ)) : ℤ) from rfl, zpow_natCast,
        Int.cast_pow, Int.cast_pow, Int.cast_two, ← pow_add]
    rw [key, zpow_zero, mul_one]
    intro hq
    have hint : (2 ^ 300 : Int) = 2 ^ 300 + 1 := by exact_mod_cast hq
    omega

end real
